import Mathlib

/-!
Verification development for the midimap repository.

Shallow embedding of the parts of the program that the statements below
are about, translated from the Python sources:

* `src/src/mapper.py` (and its duplicate `src/main.py`): the MIDI to
  keyboard mapping engine (`handle_note_on` / `handle_note_off`).
* `src/src/gui.py`, class `MIDIFilePlayer`: MIDI file loading
  (`load_file`), note range adjustment (`_apply_note_adjustment`) and
  the humanize step (`_apply_misclick`).
* `src/src/gui.py`, class `MIDIMapperGUI`: the profile store
  (`load_all_profiles` / `save_all_profiles`).
* `src/utils/audio.py`: MIDI serialization (`write_events_to_midi`).
* `src/src/converters/inference.py`: overlap reconstruction (`deframe`).

Real valued quantities (times in seconds, percentage rates) are modelled
as rationals, Python integers as `Int` or `Nat`, Python dictionaries as
association lists or as functions, and the random draws of the humanize
step as explicit parameters.
-/

/-! ## Mapping engine (src/src/mapper.py, duplicated in src/main.py) -/

/-- State of `MIDIToKeyboardMapper`: the note to key-combo dictionary
`midi_map`, the `active_notes` dictionary (read through
`active_notes.get(note, False)`, modelled as a total Boolean function),
and `velocity_threshold`. -/
structure MapperState where
  midiMap : Nat → Option String
  activeNotes : Nat → Bool
  velocityThreshold : Nat

/-- Embedding of `handle_note_on` (mapper.py lines 205 to 215, main.py
lines 229 to 239).  Returns the successor state together with the list
of key-combo strings passed to `press_key`, one entry per issued key
press. -/
def handleNoteOn (s : MapperState) (note velocity : Nat) : MapperState × List String :=
  if velocity < s.velocityThreshold then (s, [])
  else
    match s.midiMap note with
    | none => (s, [])
    | some key =>
      if s.activeNotes note then (s, [])
      else ({ s with activeNotes := fun n => if n = note then true else s.activeNotes n }, [key])

/-- Embedding of `handle_note_off` (mapper.py lines 217 to 224).
Returns the successor state together with the list of key-combo strings
passed to `release_key`. -/
def handleNoteOff (s : MapperState) (note : Nat) : MapperState × List String :=
  match s.midiMap note with
  | none => (s, [])
  | some key =>
    if s.activeNotes note then
      ({ s with activeNotes := fun n => if n = note then false else s.activeNotes n }, [key])
    else (s, [])

/-! ## MIDI file player: load_file (src/src/gui.py lines 69 to 104) -/

/-- Kind of a recorded player event: `'on'` or `'off'`. -/
inductive EvType where
  | on
  | off
deriving DecidableEq, Repr

/-- Entry of `original_events` / `events`: a `(time, type, note)` triple. -/
structure PEvent where
  time : ℚ
  type : EvType
  note : ℤ
deriving DecidableEq, Repr

/-- Messages delivered by iterating a `mido.MidiFile`: `note_on` with a
velocity, `note_off`, or any other message kind; each carries its delta
time in seconds. -/
inductive MidoMsg where
  | noteOn (note : ℤ) (velocity : Nat) (time : ℚ)
  | noteOff (note : ℤ) (time : ℚ)
  | other (time : ℚ)
deriving DecidableEq, Repr

/-- Delta time in seconds of a mido message. -/
def MidoMsg.time : MidoMsg → ℚ
  | .noteOn _ _ t => t
  | .noteOff _ t => t
  | .other t => t

/-- Event collection loop of `load_file`: accumulate absolute time by
summing delta times; a `note_on` with positive velocity records an
`'on'` event, a `note_off` or a zero velocity `note_on` records an
`'off'` event, anything else records nothing. -/
def collectEvents : List MidoMsg → ℚ → List PEvent
  | [], _ => []
  | m :: rest, t =>
    let t1 := t + m.time
    match m with
    | .noteOn note vel _ =>
      if 0 < vel then ⟨t1, .on, note⟩ :: collectEvents rest t1
      else ⟨t1, .off, note⟩ :: collectEvents rest t1
    | .noteOff note _ => ⟨t1, .off, note⟩ :: collectEvents rest t1
    | .other _ => collectEvents rest t1

/-- Final accumulated `current_time` after iterating every message. -/
def totalTimeOf (msgs : List MidoMsg) : ℚ :=
  msgs.foldl (fun t m => t + m.time) 0

/-- Stable sort of player events by time, modelling `list.sort(key=lambda x: x[0])`. -/
def sortEvents (events : List PEvent) : List PEvent :=
  List.insertionSort (fun a b => a.time ≤ b.time) events

/-- Value of `self.original_events` after `load_file`: the recorded
events sorted by time. -/
def loadFileOriginalEvents (msgs : List MidoMsg) : List PEvent :=
  sortEvents (collectEvents msgs 0)

/-- Value of `self.total_duration` after `load_file`:
`current_time if self.original_events else 0.0`. -/
def loadFileTotalDuration (msgs : List MidoMsg) : ℚ :=
  match collectEvents msgs 0 with
  | [] => 0
  | _ :: _ => totalTimeOf msgs

/-! ## Note range adjustment (src/src/gui.py lines 106 to 179)

The two `while` loops that fold a transposed note into range by twelve
semitone steps are embedded with an explicit iteration budget that is
large enough for the loop to reach its exit condition, so that the
functions stay structurally recursive and computable. -/

/-- Iterated body of `while adjusted < self.base_note: adjusted += 12`. -/
def octaveFoldUpAux (base : ℤ) : Nat → ℤ → ℤ
  | 0, a => a
  | k + 1, a => if a < base then octaveFoldUpAux base k (a + 12) else a

/-- Loop `while adjusted < self.base_note: adjusted += 12`; the budget
`(base - a).toNat` is enough iterations for the exit condition. -/
def octaveFoldUp (base a : ℤ) : ℤ :=
  octaveFoldUpAux base (base - a).toNat a

/-- Iterated body of `while adjusted >= base + range: adjusted -= 12`. -/
def octaveFoldDownAux (lim : ℤ) : Nat → ℤ → ℤ
  | 0, a => a
  | k + 1, a => if lim ≤ a then octaveFoldDownAux lim k (a - 12) else a

/-- Loop `while adjusted >= self.base_note + self.note_range: adjusted -= 12`
with a sufficient iteration budget. -/
def octaveFoldDown (lim a : ℤ) : ℤ :=
  octaveFoldDownAux lim ((a - lim).toNat + 1) a

/-- Final safety clamp
`adjusted = max(self.base_note, min(self.base_note + self.note_range - 1, adjusted))`. -/
def clampAdjusted (base range a : ℤ) : ℤ :=
  max base (min (base + range - 1) a)

/-- Transpose computation of `_apply_note_adjustment`: the centering
branch when the song fits in the range, and `base - min` when the song
span exceeds the range.  Python floor division `//` is `Int.fdiv`. -/
def computeTranspose (base range minNote maxNote : ℤ) : ℤ :=
  if maxNote - minNote + 1 ≤ range then
    let songCenter := Int.fdiv (minNote + maxNote) 2
    let targetCenter := base + Int.fdiv range 2
    let t := targetCenter - songCenter
    let transposedMin := minNote + t
    let transposedMax := maxNote + t
    if transposedMin < base then t + (base - transposedMin)
    else if base + range ≤ transposedMax then t - (transposedMax - (base + range - 1))
    else t
  else base - minNote

/-- Per note value of the `note_mapping` dictionary: transpose, octave
fold into `[base, base + range)`, then the final safety clamp. -/
def adjustedNote (base range transpose note : ℤ) : ℤ :=
  clampAdjusted base range (octaveFoldDown (base + range) (octaveFoldUp base (note + transpose)))

/-- Minimum of a list of notes, defaulting as the code never reaches the
empty case (it returns early on an empty event list). -/
def noteListMin : List ℤ → ℤ
  | [] => 0
  | n :: ns => ns.foldl min n

/-- Maximum of a list of notes. -/
def noteListMax : List ℤ → ℤ
  | [] => 0
  | n :: ns => ns.foldl max n

/-- Value `min(unique_notes)` for an event list: the set of notes of all
events (both kinds). -/
def eventsMinNote (events : List PEvent) : ℤ :=
  noteListMin (events.map (fun e => e.note))

/-- Value `max(unique_notes)` for an event list. -/
def eventsMaxNote (events : List PEvent) : ℤ :=
  noteListMax (events.map (fun e => e.note))

/-- Embedding of `_apply_note_adjustment`: the value of `self.events`
derived from `original_events` and the adjustment settings.  An empty
event list gives an empty result; with adjustment disabled the original
events are copied; otherwise every note is sent through the note
mapping built from the computed transpose. -/
def applyNoteAdjustment (adjust : Bool) (base range : ℤ) (events : List PEvent) : List PEvent :=
  match events with
  | [] => []
  | _ :: _ =>
    if adjust = false then events
    else
      let minN := eventsMinNote events
      let maxN := eventsMaxNote events
      let t := computeTranspose base range minN maxN
      events.map (fun e => { e with note := adjustedNote base range t e.note })

/-! ## Humanize step (src/src/gui.py lines 202 to 223)

The three random draws of `_apply_misclick` are explicit parameters:
`rateDraw` models `random.random()` (a value in `[0, 1)`), `offsetDraw`
models `random.randint(-range, range)`, and `signDraw` models
`random.choice([-1, 1])` (`true` picks `1`). -/

/-- Embedding of `_apply_misclick`. -/
def applyMisclick (enabled : Bool) (rate : ℚ) (range note : ℤ)
    (rateDraw : ℚ) (offsetDraw : ℤ) (signDraw : Bool) : ℤ :=
  if enabled = false then note
  else if rate < rateDraw * 100 then note
  else
    let offset := if offsetDraw = 0 then (if signDraw then 1 else -1) else offsetDraw
    let newNote := note + offset
    max 0 (min 127 newNote)

/-! ## Profile store (src/src/gui.py lines 1063 to 1132)

The on-disk JSON configuration is modelled by `ConfigFile`; JSON object
keys are strings, so note keys live as strings on disk and as naturals
in memory.  `Nat.repr` models Python `str` on a note number, and
`pyStrToNat` models Python `int` on the decimal strings that occur as
note keys (a non-digit string makes `int` raise, which the code turns
into the fallback store). -/

/-- Parsing of a note key string, modelling `int(k)` for the
nonnegative decimal note keys of the configuration file; `none` models
the `ValueError` raised on a malformed key. -/
def pyStrToNat (s : String) : Option Nat :=
  if s.data ≠ [] ∧ s.data.all (fun c => c.isDigit) then
    some (s.data.foldl (fun acc c => 10 * acc + (c.toNat - '0'.toNat)) 0)
  else none

/-- One profile as stored on disk in the new schema. -/
structure DiskProfile where
  midiMap : List (String × String)
  velocityThreshold : ℤ
deriving DecidableEq, Repr

/-- The new schema configuration file contents. -/
structure ConfigNew where
  profiles : List (String × DiskProfile)
  currentProfile : String
  description : String
deriving DecidableEq, Repr

/-- The configuration file: either the new profile based schema or the
legacy schema with a bare top level `midi_map`. -/
inductive ConfigFile where
  | newFmt (c : ConfigNew)
  | legacy (midiMap : List (String × String)) (velocityThreshold : ℤ)
deriving DecidableEq, Repr

/-- In-memory store of the GUI: `self.profiles` (name to note map, note
keys as integers) and `self.current_profile`. -/
structure GuiStore where
  profiles : List (String × List (Nat × String))
  currentProfile : String
deriving DecidableEq, Repr

/-- Conversion `{int(k): v for k, v in midi_map.items()}`; `none` when
any key fails to parse. -/
def parseProfileMap (m : List (String × String)) : Option (List (Nat × String)) :=
  m.mapM (fun p => (pyStrToNat p.1).map (fun n => (n, p.2)))

/-- Fixed description string written by `save_all_profiles`. -/
def descriptionText : String := "MIDI note number (0-127) maps to keyboard key"

/-- Embedding of `save_all_profiles` (gui.py lines 1110 to 1132): every
profile is serialized with string typed note keys and the threshold
currently held by the mapper object. -/
def saveAllProfiles (store : GuiStore) (mapperThreshold : ℤ) : ConfigFile :=
  ConfigFile.newFmt
    { profiles := store.profiles.map (fun p =>
        (p.1, { midiMap := p.2.map (fun q => (Nat.repr q.1, q.2)),
                velocityThreshold := mapperThreshold }))
      currentProfile := store.currentProfile
      description := descriptionText }

/-- Step `if "default" not in self.profiles: self.profiles["default"] = {}`;
inserting a missing dictionary key appends it at the end. -/
def ensureDefault (ps : List (String × List (Nat × String))) : List (String × List (Nat × String)) :=
  if ps.any (fun p => p.1 = "default") then ps else ps ++ [("default", [])]

/-- Embedding of `load_all_profiles` (gui.py lines 1063 to 1108).  The
input is the configuration file on disk (`none` when absent) together
with the `velocity_threshold` of the mapper object (zero at GUI
startup); the result is the in-memory store and the file on disk after
the call (`save_all_profiles` rewrites it in the absent-file and legacy
branches).  A key parse failure raises and is caught by the handler
that installs the fallback store without writing. -/
def loadAllProfiles (file : Option ConfigFile) (mapperThreshold : ℤ) : GuiStore × Option ConfigFile :=
  match file with
  | none =>
    let store : GuiStore := { profiles := [("default", [])], currentProfile := "default" }
    (store, some (saveAllProfiles store mapperThreshold))
  | some (ConfigFile.newFmt c) =>
    match c.profiles.mapM (fun p => (parseProfileMap p.2.midiMap).map (fun m => (p.1, m))) with
    | none =>
      ({ profiles := [("default", [])], currentProfile := "default" }, some (ConfigFile.newFmt c))
    | some parsed =>
      let ps := ensureDefault parsed
      let cur := if ps.any (fun p => p.1 = c.currentProfile) then c.currentProfile else "default"
      ({ profiles := ps, currentProfile := cur }, some (ConfigFile.newFmt c))
  | some (ConfigFile.legacy mm vt) =>
    match parseProfileMap mm with
    | none =>
      ({ profiles := [("default", [])], currentProfile := "default" }, some (ConfigFile.legacy mm vt))
    | some parsed =>
      let store0 : GuiStore := { profiles := [("default", parsed)], currentProfile := "default" }
      let written := saveAllProfiles store0 mapperThreshold
      let ps := ensureDefault store0.profiles
      let cur := if ps.any (fun p => p.1 = store0.currentProfile) then store0.currentProfile else "default"
      ({ profiles := ps, currentProfile := cur }, some written)

/-! ## MIDI serialization (src/utils/audio.py lines 91 to 172)

`write_events_to_midi` builds track 1 from a message roll sorted by
time.  Only the `note_on` and `control_change` messages of track 1 are
modelled; the meta messages carry no delta computed from event times. -/

/-- Note event handed to `write_events_to_midi`. -/
structure NoteEvent where
  onsetTime : ℚ
  offsetTime : ℚ
  midiNote : Nat
  velocity : Nat
deriving DecidableEq, Repr

/-- Pedal event handed to `write_events_to_midi`. -/
structure PedalEvent where
  onsetTime : ℚ
  offsetTime : ℚ
deriving DecidableEq, Repr

/-- Entry of `message_roll`: either a note message (a `midi_note` and a
`velocity`) or a sustain controller message, each at an absolute time in
seconds. -/
inductive RollMsg where
  | note (time : ℚ) (midiNote velocity : Nat)
  | cc (time : ℚ) (control value : Nat)
deriving DecidableEq, Repr

/-- Absolute time of a roll entry. -/
def RollMsg.time : RollMsg → ℚ
  | .note t _ _ => t
  | .cc t _ _ => t

/-- Payload of an emitted track 1 message. -/
inductive TrackPayload where
  | noteOn (note velocity : Nat)
  | controlChange (channel control value : Nat)
deriving DecidableEq, Repr

/-- Emitted track 1 message: payload plus the mido `time` field, the
delta time in ticks. -/
structure TrackMsg where
  payload : TrackPayload
  time : ℤ
deriving DecidableEq, Repr

/-- Constant `ticks_per_beat = 384`. -/
def ticksPerBeat : ℚ := 384

/-- Constant `beats_per_second = 2`. -/
def beatsPerSecond : ℚ := 2

/-- Constant `ticks_per_second = ticks_per_beat * beats_per_second`. -/
def ticksPerSecond : ℚ := ticksPerBeat * beatsPerSecond

/-- Python `int()` on a rational: truncation toward zero. -/
def pyInt (q : ℚ) : ℤ :=
  if q < 0 then ⌈q⌉ else ⌊q⌋

/-- Tick value `int((time - start_time) * ticks_per_second)` of an
absolute event time. -/
def writeTicks (startTime t : ℚ) : ℤ :=
  pyInt ((t - startTime) * ticksPerSecond)

/-- Construction of `message_roll`: an onset and an offset message per
note event (velocity zero as the off equivalent), then a pair of
controller 64 messages valued 127 and 0 per pedal event. -/
def messageRoll (noteEvents : List NoteEvent) (pedalEvents : List PedalEvent) : List RollMsg :=
  (noteEvents.bind fun e =>
    [RollMsg.note e.onsetTime e.midiNote e.velocity, RollMsg.note e.offsetTime e.midiNote 0])
  ++ (pedalEvents.bind fun p =>
    [RollMsg.cc p.onsetTime 64 127, RollMsg.cc p.offsetTime 64 0])

/-- Stable sort of the roll by time, modelling
`message_roll.sort(key=lambda note_event: note_event[time])`. -/
def sortRoll (roll : List RollMsg) : List RollMsg :=
  List.insertionSort (fun a b => a.time ≤ b.time) roll

/-- Payload of the track message emitted for a roll entry: a `note_on`
with the stored velocity, or a channel 0 `control_change`. -/
def rollPayload : RollMsg → TrackPayload
  | .note _ n v => TrackPayload.noteOn n v
  | .cc _ c v => TrackPayload.controlChange 0 c v

/-- Track message for a roll entry at a given delta. -/
def emitMsg (m : RollMsg) (delta : ℤ) : TrackMsg :=
  { payload := rollPayload m, time := delta }

/-- Emission loop of `write_events_to_midi`: entries with a negative
tick value are skipped, an emitted message carries the tick difference
to the previously emitted one, and `previous_ticks` starts at zero. -/
def writeTrack1Aux (startTime : ℚ) : ℤ → List RollMsg → List TrackMsg
  | _, [] => []
  | prev, m :: rest =>
    let thisTicks := writeTicks startTime m.time
    if 0 ≤ thisTicks then emitMsg m (thisTicks - prev) :: writeTrack1Aux startTime thisTicks rest
    else writeTrack1Aux startTime prev rest

/-- The `note_on` and `control_change` messages appended to track 1 by
`write_events_to_midi`. -/
def track1Messages (startTime : ℚ) (noteEvents : List NoteEvent) (pedalEvents : List PedalEvent) :
    List TrackMsg :=
  writeTrack1Aux startTime 0 (sortRoll (messageRoll noteEvents pedalEvents))

/-- Absolute tick values reached by a list of deltas from a starting
reference: partial sums. -/
def cumSums (p : ℤ) : List ℤ → List ℤ
  | [] => []
  | d :: ds => (p + d) :: cumSums (p + d) ds

/-! ## Overlap reconstruction (src/src/converters/inference.py lines 186 to 201)

A stacked per segment output is a list of segments, each a list of
frames; the per pitch class axis is abstracted into the frame type.
Python slice `x[a:b]` is `(l.take b).drop a`, and `int(s * 0.25)` and
`int(s * 0.75)` are `s / 4` and `3 * s / 4` in natural division (exact
for the asserted multiple of four, and equal to the float computation
for every list length). -/

/-- Embedding of `PianoConverter.deframe`: a single segment is returned
whole; otherwise the final frame of every segment is dropped
(`x[:, 0:-1, :]`), the first segment keeps its first three quarters,
interior segments keep their middle half, the last segment keeps its
last three quarters, and the slices are concatenated. -/
def deframe {α : Type} (x : List (List α)) : List α :=
  match x with
  | [seg] => seg
  | segs =>
    let y := segs.map (fun seg => seg.dropLast)
    let s := (y.headD []).length
    let firstPart := (y.headD []).take (3 * s / 4)
    let mids := (y.drop 1).dropLast
    let lastPart := (y.getLastD []).drop (s / 4)
    firstPart ++ (mids.map (fun seg => (seg.take (3 * s / 4)).drop (s / 4))).join ++ lastPart

/-- Modelled from the spec: the reconstruction as the claim words it,
discarding the final frame of every segment EXCEPT the last, then
keeping the first three quarters of the first segment, the middle half
of each interior segment and the last three quarters of the last
segment, with each slice measured against the length of its own
segment. -/
def deframeClaim {α : Type} (x : List (List α)) : List α :=
  match x with
  | [seg] => seg
  | segs =>
    let y := segs.dropLast.map (fun seg => seg.dropLast) ++ [segs.getLastD []]
    let first := y.headD []
    let firstPart := first.take (3 * first.length / 4)
    let mids := (y.drop 1).dropLast
    let last := y.getLastD []
    let lastPart := last.drop (last.length / 4)
    firstPart ++ (mids.map (fun seg => (seg.take (3 * seg.length / 4)).drop (seg.length / 4))).join
      ++ lastPart

/-- Reconstruction with the final frame of EVERY segment discarded (the
amended reading), with each slice measured against the length of its
own already shortened segment. -/
def deframeAmended {α : Type} (x : List (List α)) : List α :=
  match x with
  | [seg] => seg
  | segs =>
    let y := segs.map (fun seg => seg.dropLast)
    let first := y.headD []
    let firstPart := first.take (3 * first.length / 4)
    let mids := (y.drop 1).dropLast
    let last := y.getLastD []
    let lastPart := last.drop (last.length / 4)
    firstPart ++ (mids.map (fun seg => (seg.take (3 * seg.length / 4)).drop (seg.length / 4))).join
      ++ lastPart

/-- Modelled from the spec: the rounding conversion the claim states
for tick values, `round((time - start_time) * ticks_per_beat * beats_per_second)`. -/
def roundTicksClaim (startTime t : ℚ) : ℤ :=
  ⌊(t - startTime) * ticksPerSecond + 1 / 2⌋

/-! ## C1: duplicate note-on suppression -/

/-- C1.  For every mapper state in which a note is mapped and not
currently held, and every velocity at or above the threshold, two
consecutive `handle_note_on(note, velocity)` calls with no intervening
`handle_note_off(note)` issue exactly one key press to the keyboard
backend. -/
theorem c1_duplicate_note_on_noop (s : MapperState) (note velocity : Nat) (key : String)
    (hmap : s.midiMap note = some key) (hvel : s.velocityThreshold ≤ velocity)
    (hact : s.activeNotes note = false) :
    (handleNoteOn s note velocity).2 ++
      (handleNoteOn (handleNoteOn s note velocity).1 note velocity).2 = [key] := by
  have hlt : ¬ velocity < s.velocityThreshold := Nat.not_lt.mpr hvel
  simp [handleNoteOn, hmap, hact, hlt]

/-- Witness for C1 at a concrete state mapping note 60 to the key `a`. -/
theorem c1_witness :
    (handleNoteOn ⟨fun n => if n = 60 then some "a" else none, fun _ => false, 0⟩ 60 100).2 ++
      (handleNoteOn
        (handleNoteOn ⟨fun n => if n = 60 then some "a" else none, fun _ => false, 0⟩ 60 100).1
        60 100).2 = ["a"] :=
  c1_duplicate_note_on_noop ⟨fun n => if n = 60 then some "a" else none, fun _ => false, 0⟩
    60 100 "a" rfl (by decide) rfl

/-! ## C10: misclick range invariant -/

/-- C10.  For every input note in `[0, 127]`, any misclick settings and
any outcome of the random draws, `_apply_misclick` returns a note in
`[0, 127]`; with `misclick_enabled` false it returns the input note
unchanged. -/
theorem c10_misclick_bounds (enabled : Bool) (rate : ℚ) (range note : ℤ)
    (rateDraw : ℚ) (offsetDraw : ℤ) (signDraw : Bool) :
    (enabled = false → applyMisclick enabled rate range note rateDraw offsetDraw signDraw = note) ∧
    (0 ≤ note → note ≤ 127 →
      0 ≤ applyMisclick enabled rate range note rateDraw offsetDraw signDraw ∧
        applyMisclick enabled rate range note rateDraw offsetDraw signDraw ≤ 127) := by
  constructor
  · intro h
    simp [applyMisclick, h]
  · intro h0 h127
    cases enabled with
    | false =>
      simp only [applyMisclick, if_pos rfl]
      exact ⟨h0, h127⟩
    | true =>
      simp only [applyMisclick]
      rw [if_neg (by simp : ¬ ((true : Bool) = false))]
      split
      · exact ⟨h0, h127⟩
      · simp only [max_def, min_def]
        split_ifs <;> omega

/-- Witness for C10: a disabled call returns the note, an enabled call
stays inside the MIDI range. -/
theorem c10_witness :
    applyMisclick false 2 2 60 0 0 false = 60 ∧
    (0 ≤ applyMisclick true 100 2 60 0 2 false ∧
      applyMisclick true 100 2 60 0 2 false ≤ 127) :=
  ⟨(c10_misclick_bounds false 2 2 60 0 0 false).1 rfl,
   (c10_misclick_bounds true 100 2 60 0 2 false).2 (by decide) (by decide)⟩

/-! ## C3: an activated misclick and the boundary clamp -/

/-- C3 counterexample.  At note 0 with `misclick_range = 1`,
`rate = 100` and draws that activate the misclick and pick offset `-1`,
the clamp maps the substituted note `-1` back to 0, so the returned
note does NOT differ from the input, refuting the statement that an
activated misclick always changes the note. -/
theorem c3_counterexample :
    ¬ (100 : ℚ) < 0 * 100 ∧ applyMisclick true 100 1 0 0 (-1) false = 0 := by
  constructor
  · norm_num
  · norm_num [applyMisclick]

/-- C3 (amended).  For every note and every outcome of the draws in
which the rate check passes, the applied offset is nonzero and lies in
`[-misclick_range, misclick_range]`, and the returned note is the
substituted note clamped into `[0, 127]`; whenever the unclamped
substituted note already lies in `[0, 127]` the result actually differs
from the input, but at the boundary the clamp can return the input
unchanged. -/
theorem c3_amended (rate : ℚ) (range note : ℤ) (rateDraw : ℚ) (offsetDraw : ℤ) (signDraw : Bool)
    (hact : ¬ rate < rateDraw * 100) (hr : 1 ≤ range)
    (ho1 : -range ≤ offsetDraw) (ho2 : offsetDraw ≤ range) :
    ∃ offset : ℤ, offset ≠ 0 ∧ -range ≤ offset ∧ offset ≤ range ∧
      applyMisclick true rate range note rateDraw offsetDraw signDraw =
        max 0 (min 127 (note + offset)) ∧
      (0 ≤ note + offset → note + offset ≤ 127 →
        applyMisclick true rate range note rateDraw offsetDraw signDraw ≠ note) := by
  refine ⟨if offsetDraw = 0 then (if signDraw then 1 else -1) else offsetDraw, ?_, ?_, ?_, ?_, ?_⟩
  · split_ifs <;> omega
  · split_ifs <;> omega
  · split_ifs <;> omega
  · simp only [applyMisclick]
    rw [if_neg (by simp : ¬ ((true : Bool) = false)), if_neg hact]
  · intro hA hB
    simp only [applyMisclick]
    rw [if_neg (by simp : ¬ ((true : Bool) = false)), if_neg hact]
    set o : ℤ := if offsetDraw = 0 then (if signDraw then 1 else -1) else offsetDraw with ho
    have hne : o ≠ 0 := by rw [ho]; split_ifs <;> omega
    simp only [max_def, min_def]
    split_ifs <;> omega

/-- Witness for C3 at `rate = 100`, `range = 2`, note 60 and an
activating draw with offset 2. -/
theorem c3_witness :
    ¬ (100 : ℚ) < 0 * 100 ∧
    (∃ offset : ℤ, offset ≠ 0 ∧ -2 ≤ offset ∧ offset ≤ 2 ∧
      applyMisclick true 100 2 60 0 2 false = max 0 (min 127 (60 + offset)) ∧
      (0 ≤ 60 + offset → 60 + offset ≤ 127 →
        applyMisclick true 100 2 60 0 2 false ≠ 60)) :=
  ⟨by norm_num, c3_amended 100 2 60 0 2 false (by norm_num) (by decide) (by decide) (by decide)⟩

/-! ## C2: octave folding into the target range -/

/-- Lower bound of the fold-up loop: with a sufficient budget the loop
only exits at or above the base note. -/
theorem octaveFoldUpAux_ge (base : ℤ) :
    ∀ (f : Nat) (a : ℤ), base - a ≤ 12 * (f : ℤ) → base ≤ octaveFoldUpAux base f a := by
  intro f
  induction f with
  | zero => intro a h; simp only [octaveFoldUpAux]; omega
  | succ k ih =>
    intro a h
    simp only [octaveFoldUpAux]
    split
    · exact ih (a + 12) (by push_cast at h ⊢; omega)
    · omega

/-- Lower bound of `octaveFoldUp`. -/
theorem octaveFoldUp_ge (base a : ℤ) : base ≤ octaveFoldUp base a :=
  octaveFoldUpAux_ge base _ a (by omega)

/-- The fold-up loop only moves a note by whole octaves. -/
theorem octaveFoldUpAux_emod (base : ℤ) :
    ∀ (f : Nat) (a : ℤ), octaveFoldUpAux base f a % 12 = a % 12 := by
  intro f
  induction f with
  | zero => intro a; rfl
  | succ k ih =>
    intro a
    simp only [octaveFoldUpAux]
    split
    · rw [ih]; omega
    · rfl

/-- Octave preservation of `octaveFoldUp` modulo 12. -/
theorem octaveFoldUp_emod (base a : ℤ) : octaveFoldUp base a % 12 = a % 12 :=
  octaveFoldUpAux_emod base _ a

/-- Upper bound of the fold-down loop: with a sufficient budget the
loop only exits strictly below the limit. -/
theorem octaveFoldDownAux_lt (lim : ℤ) :
    ∀ (f : Nat) (a : ℤ), a - lim < 12 * (f : ℤ) → octaveFoldDownAux lim f a < lim := by
  intro f
  induction f with
  | zero => intro a h; simp only [octaveFoldDownAux]; omega
  | succ k ih =>
    intro a h
    simp only [octaveFoldDownAux]
    split
    · exact ih (a - 12) (by push_cast at h ⊢; omega)
    · omega

/-- Upper bound of `octaveFoldDown`. -/
theorem octaveFoldDown_lt (lim a : ℤ) : octaveFoldDown lim a < lim :=
  octaveFoldDownAux_lt lim _ a (by omega)

/-- The fold-down loop only moves a note by whole octaves. -/
theorem octaveFoldDownAux_emod (lim : ℤ) :
    ∀ (f : Nat) (a : ℤ), octaveFoldDownAux lim f a % 12 = a % 12 := by
  intro f
  induction f with
  | zero => intro a; rfl
  | succ k ih =>
    intro a
    simp only [octaveFoldDownAux]
    split
    · rw [ih]; omega
    · rfl

/-- Octave preservation of `octaveFoldDown` modulo 12. -/
theorem octaveFoldDown_emod (lim a : ℤ) : octaveFoldDown lim a % 12 = a % 12 :=
  octaveFoldDownAux_emod lim _ a

/-- The fold-down loop never drops below `base` when the limit leaves
room for a full octave. -/
theorem octaveFoldDownAux_ge (lim base : ℤ) (h12 : base + 12 ≤ lim) :
    ∀ (f : Nat) (a : ℤ), base ≤ a → base ≤ octaveFoldDownAux lim f a := by
  intro f
  induction f with
  | zero => intro a h; exact h
  | succ k ih =>
    intro a h
    simp only [octaveFoldDownAux]
    split
    · exact ih (a - 12) (by omega)
    · exact h

/-- Lower bound of `octaveFoldDown` when the range holds an octave. -/
theorem octaveFoldDown_ge (lim base a : ℤ) (h12 : base + 12 ≤ lim) (ha : base ≤ a) :
    base ≤ octaveFoldDown lim a :=
  octaveFoldDownAux_ge lim base h12 _ a ha

/-- The adjusted note always lands in `[base, base + range)` thanks to
the final safety clamp, for any transpose. -/
theorem adjustedNote_mem (base range transpose note : ℤ) (hr : 1 ≤ range) :
    base ≤ adjustedNote base range transpose note ∧
      adjustedNote base range transpose note < base + range := by
  unfold adjustedNote clampAdjusted
  simp only [max_def, min_def]
  split_ifs <;> omega

/-- When the range holds at least an octave the safety clamp is the
identity, and the adjusted note differs from the transposed note by a
multiple of 12. -/
theorem adjustedNote_sub_emod (base range transpose note : ℤ) (h12 : 12 ≤ range) :
    (adjustedNote base range transpose note - (note + transpose)) % 12 = 0 := by
  have h1 := octaveFoldUp_ge base (note + transpose)
  have h2 := octaveFoldDown_lt (base + range) (octaveFoldUp base (note + transpose))
  have h3 := octaveFoldDown_ge (base + range) base (octaveFoldUp base (note + transpose))
    (by omega) h1
  have e1 := octaveFoldUp_emod base (note + transpose)
  have e2 := octaveFoldDown_emod (base + range) (octaveFoldUp base (note + transpose))
  unfold adjustedNote clampAdjusted
  simp only [max_def, min_def]
  split_ifs <;> omega

/-- C2.  For every nonempty loaded event list whose original note span
exceeds the note range (with the range at least one octave, as the
settings clamp enforces), `_apply_note_adjustment` with adjustment
enabled maps every event note into `[base_note, base_note + note_range)`;
and in the concrete instance of a song spanning MIDI 24 to 96 adjusted
onto `base_note = 48`, `note_range = 36`, every adjusted pitch lies in
`[48, 84)` and differs from its original only by a multiple of 12. -/
theorem c2_note_adjustment (base range : ℤ) (events : List PEvent)
    (hne : events ≠ []) (h12 : 12 ≤ range)
    (hspan : range < eventsMaxNote events - eventsMinNote events + 1) :
    (∀ ev ∈ applyNoteAdjustment true base range events,
      base ≤ ev.note ∧ ev.note < base + range) ∧
    (base = 48 → range = 36 → eventsMinNote events = 24 → eventsMaxNote events = 96 →
      ∀ ev ∈ events,
        48 ≤ adjustedNote base range
            (computeTranspose base range (eventsMinNote events) (eventsMaxNote events)) ev.note ∧
        adjustedNote base range
            (computeTranspose base range (eventsMinNote events) (eventsMaxNote events)) ev.note
          < 84 ∧
        (adjustedNote base range
            (computeTranspose base range (eventsMinNote events) (eventsMaxNote events)) ev.note
          - ev.note) % 12 = 0) := by
  constructor
  · intro ev hev
    match events, hne with
    | e :: es, _ =>
      simp only [applyNoteAdjustment] at hev
      rw [if_neg (by simp : ¬ ((true : Bool) = false))] at hev
      rcases List.mem_map.1 hev with ⟨e0, _, rfl⟩
      exact adjustedNote_mem base range _ e0.note (by omega)
  · intro hb hr hmin hmax ev _
    rw [hmin, hmax]
    have ht : computeTranspose base range 24 96 = 24 := by
      subst hb hr; decide
    rw [ht]
    have hmem := adjustedNote_mem base range 24 ev.note (by omega)
    have hmod := adjustedNote_sub_emod base range 24 ev.note h12
    subst hb hr
    refine ⟨hmem.1, hmem.2, ?_⟩
    omega

/-- Witness for C2 on a concrete three-event song spanning 24 to 96,
adjusted onto base 48 with a 36 note range. -/
theorem c2_witness :
    (([⟨0, EvType.on, 24⟩, ⟨1, EvType.on, 96⟩, ⟨2, EvType.on, 60⟩] : List PEvent) ≠ []) ∧
    (∀ ev ∈ applyNoteAdjustment true 48 36
        [⟨0, EvType.on, 24⟩, ⟨1, EvType.on, 96⟩, ⟨2, EvType.on, 60⟩],
      48 ≤ ev.note ∧ ev.note < 48 + 36) :=
  ⟨by decide,
   (c2_note_adjustment 48 36 [⟨0, EvType.on, 24⟩, ⟨1, EvType.on, 96⟩, ⟨2, EvType.on, 60⟩]
      (by decide) (by decide) (by decide)).1⟩

/-! ## C4: legacy migration -/

/-- C4 counterexample.  Loading the legacy file
`{"midi_map": {"60": "a"}, "velocity_threshold": 5}` at GUI startup
(mapper threshold 0) produces one `default` profile with the parsed map
and rewrites the file in the new schema, but the rewritten profile
carries velocity threshold 0, not the legacy value 5: the legacy
threshold is dropped. -/
theorem c4_counterexample :
    loadAllProfiles (some (ConfigFile.legacy [("60", "a")] 5)) 0 =
      ({ profiles := [("default", [(60, "a")])], currentProfile := "default" },
       some (ConfigFile.newFmt
         { profiles := [("default", { midiMap := [("60", "a")], velocityThreshold := 0 })],
           currentProfile := "default", description := descriptionText })) ∧
    (0 : ℤ) ≠ 5 := by
  constructor
  · decide
  · decide

/-- C4 (amended).  Loading a legacy configuration file whose note keys
parse migrates it into exactly one profile named `default` holding the
parsed integer keyed map, and immediately rewrites the file in the new
profiles schema; the rewritten profile records the velocity threshold
currently held by the mapper object (zero at GUI startup), not the
legacy value from the file. -/
theorem c4_legacy_migration (mm : List (String × String)) (vt t : ℤ)
    (parsed : List (Nat × String)) (hparse : parseProfileMap mm = some parsed) :
    loadAllProfiles (some (ConfigFile.legacy mm vt)) t =
      ({ profiles := [("default", parsed)], currentProfile := "default" },
       some (ConfigFile.newFmt
         { profiles := [("default",
             { midiMap := parsed.map (fun q => (Nat.repr q.1, q.2)),
               velocityThreshold := t })],
           currentProfile := "default", description := descriptionText })) := by
  simp [loadAllProfiles, hparse, saveAllProfiles, ensureDefault]

/-- Witness for C4 at a concrete legacy file with threshold 7 and
mapper threshold 3. -/
theorem c4_witness :
    parseProfileMap [("60", "a")] = some [(60, "a")] ∧
    loadAllProfiles (some (ConfigFile.legacy [("60", "a")] 7)) 3 =
      ({ profiles := [("default", [(60, "a")])], currentProfile := "default" },
       some (ConfigFile.newFmt
         { profiles := [("default",
             { midiMap := [("60", "a")], velocityThreshold := 3 })],
           currentProfile := "default", description := descriptionText })) :=
  ⟨by decide, c4_legacy_migration [("60", "a")] 7 3 [(60, "a")] (by decide)⟩

/-! ## C5: round trip of the profile store -/

/-- Decimal round trip for note keys up to 127: parsing the string form
of a note number gives the number back. -/
theorem pyStrToNat_repr (n : Nat) (h : n < 128) : pyStrToNat (Nat.repr n) = some n := by
  have key : ∀ m : Fin 128, pyStrToNat (Nat.repr m.val) = some m.val := by decide
  exact key ⟨n, h⟩

/-- Round trip of one serialized profile map with note keys up to 127. -/
theorem parseProfileMap_roundtrip (m : List (Nat × String)) (h : ∀ q ∈ m, q.1 < 128) :
    parseProfileMap (m.map (fun q => (Nat.repr q.1, q.2))) = some m := by
  induction m with
  | nil => rfl
  | cons q rest ih =>
    have h1 : q.1 < 128 := h q (List.mem_cons_self q rest)
    have h2 : ∀ x ∈ rest, x.1 < 128 := fun x hx => h x (List.mem_cons_of_mem q hx)
    simp only [parseProfileMap, List.map_cons, List.mapM_cons] at ih ⊢
    rw [pyStrToNat_repr q.1 h1]
    rw [ih h2]
    rfl

/-- Round trip of the whole serialized profile list. -/
theorem profilesMapM_roundtrip (ps : List (String × List (Nat × String))) (t : ℤ)
    (h : ∀ p ∈ ps, ∀ q ∈ p.2, q.1 < 128) :
    (ps.map (fun p => (p.1,
        ({ midiMap := p.2.map (fun q => (Nat.repr q.1, q.2)),
           velocityThreshold := t } : DiskProfile)))).mapM
      (fun p => (parseProfileMap p.2.midiMap).map (fun m => (p.1, m))) = some ps := by
  induction ps with
  | nil => rfl
  | cons p rest ih =>
    have h1 : ∀ q ∈ p.2, q.1 < 128 := h p (List.mem_cons_self p rest)
    have h2 : ∀ x ∈ rest, ∀ q ∈ x.2, q.1 < 128 := fun x hx => h x (List.mem_cons_of_mem p hx)
    simp only [List.map_cons, List.mapM_cons]
    rw [parseProfileMap_roundtrip p.2 h1, ih h2]
    rfl

/-- Lookup of a member of an association list with distinct keys. -/
theorem lookup_eq_of_mem_nodup {β : Type} {l : List (String × β)} {p : String × β}
    (hnd : (l.map Prod.fst).Nodup) (hp : p ∈ l) : l.lookup p.1 = some p.2 := by
  induction l with
  | nil => cases hp
  | cons q rest ih =>
    rcases List.mem_cons.1 hp with rfl | hmem
    · simp [List.lookup]
    · have hq : q.1 ≠ p.1 := by
        intro hcontra
        have : p.1 ∈ rest.map Prod.fst := List.mem_map.2 ⟨p, hmem, rfl⟩
        rw [List.map_cons] at hnd
        exact (List.nodup_cons.1 hnd).1 (hcontra ▸ this)
      have hbeq : (p.1 == q.1) = false := by
        simp [beq_eq_false_iff_ne]
        exact fun hc => hq hc.symm
      rw [List.lookup, hbeq]
      exact ih (List.nodup_cons.1 (by rw [List.map_cons] at hnd; exact hnd)).2 hmem

/-- Lookup in an extended association list agrees with a successful
lookup in the prefix. -/
theorem lookup_append_of_some {β : Type} {l1 l2 : List (String × β)} {k : String} {v : β}
    (h : l1.lookup k = some v) : (l1 ++ l2).lookup k = some v := by
  induction l1 with
  | nil => simp [List.lookup] at h
  | cons q rest ih =>
    rw [List.cons_append, List.lookup]
    rw [List.lookup] at h
    cases hbeq : (k == q.1) with
    | true => rw [hbeq] at h; exact h
    | false => rw [hbeq] at h; exact ih h

/-- Lookup of an original profile in the store after the missing
`default` profile has possibly been appended. -/
theorem lookup_ensureDefault {l : List (String × List (Nat × String))} {k : String}
    {v : List (Nat × String)} (h : l.lookup k = some v) :
    (ensureDefault l).lookup k = some v := by
  unfold ensureDefault
  split
  · exact h
  · exact lookup_append_of_some h

/-- Membership survives `ensureDefault`. -/
theorem any_ensureDefault {l : List (String × List (Nat × String))} {s : String}
    (h : l.any (fun p => p.1 = s)) : (ensureDefault l).any (fun p => p.1 = s) := by
  unfold ensureDefault
  split
  · exact h
  · rw [List.any_append, h, Bool.true_or]

/-- C5.  Saving a store whose profiles map note numbers 0 to 127 to key
strings and whose current profile is one of its profiles, then loading
it back, preserves the current profile and recovers every profile with
identical contents, with note keys restored as integers. -/
theorem c5_profile_roundtrip (store : GuiStore) (t tReload : ℤ)
    (hnd : (store.profiles.map Prod.fst).Nodup)
    (hkeys : ∀ p ∈ store.profiles, ∀ q ∈ p.2, q.1 < 128)
    (hcur : ∃ p ∈ store.profiles, p.1 = store.currentProfile) :
    (loadAllProfiles (some (saveAllProfiles store t)) tReload).1.currentProfile
        = store.currentProfile ∧
    ∀ p ∈ store.profiles,
      (loadAllProfiles (some (saveAllProfiles store t)) tReload).1.profiles.lookup p.1
        = some p.2 := by
  have hmapM := profilesMapM_roundtrip store.profiles t hkeys
  have hany : store.profiles.any (fun p => p.1 = store.currentProfile) := by
    rcases hcur with ⟨p, hp, hp1⟩
    exact List.any_eq_true.2 ⟨p, hp, by simp [hp1]⟩
  simp only [loadAllProfiles, saveAllProfiles]
  rw [hmapM]
  constructor
  · simp [any_ensureDefault hany]
  · intro p hp
    simp only
    exact lookup_ensureDefault (lookup_eq_of_mem_nodup hnd hp)

/-- Witness for C5 on the store with profiles `A` (note 60 mapped to
`a`) and `B` (empty), current profile `A`. -/
theorem c5_witness :
    ((([("A", [(60, "a")]), ("B", [])] : List (String × List (Nat × String))).map
        Prod.fst).Nodup) ∧
    (loadAllProfiles (some (saveAllProfiles ⟨[("A", [(60, "a")]), ("B", [])], "A"⟩ 0)) 0).1.currentProfile
        = "A" ∧
    ∀ p ∈ ([("A", [(60, "a")]), ("B", [])] : List (String × List (Nat × String))),
      (loadAllProfiles (some (saveAllProfiles ⟨[("A", [(60, "a")]), ("B", [])], "A"⟩ 0)) 0).1.profiles.lookup p.1
        = some p.2 := by
  have key := c5_profile_roundtrip ⟨[("A", [(60, "a")]), ("B", [])], "A"⟩ 0 0
    (by decide) (by decide) (by decide)
  exact ⟨by decide, key.1, key.2⟩

/-! ## C6 and C9: tick conversion and delta times -/

/-- Truncation toward zero is monotone. -/
theorem pyInt_mono {q r : ℚ} (h : q ≤ r) : pyInt q ≤ pyInt r := by
  unfold pyInt
  split_ifs with h1 h2
  · exact Int.ceil_le_ceil h
  · calc ⌈q⌉ ≤ ⌈(0 : ℚ)⌉ := Int.ceil_le_ceil (le_of_lt h1)
      _ = 0 := by simp
      _ ≤ ⌊r⌋ := Int.le_floor.2 (by push_cast; linarith)
  · linarith
  · exact Int.floor_le_floor h

/-- The tick conversion is monotone in the event time. -/
theorem writeTicks_mono (startTime : ℚ) {t1 t2 : ℚ} (h : t1 ≤ t2) :
    writeTicks startTime t1 ≤ writeTicks startTime t2 := by
  unfold writeTicks
  apply pyInt_mono
  have hpos : (0 : ℚ) ≤ ticksPerSecond := by
    norm_num [ticksPerSecond, ticksPerBeat, beatsPerSecond]
  exact mul_le_mul_of_nonneg_right (by linarith) hpos

instance : IsTotal RollMsg (fun a b => a.time ≤ b.time) :=
  ⟨fun a b => le_total a.time b.time⟩

instance : IsTrans RollMsg (fun a b => a.time ≤ b.time) :=
  ⟨fun _ _ _ h1 h2 => le_trans h1 h2⟩

/-- The sorted message roll is sorted by time. -/
theorem sortRoll_sorted (roll : List RollMsg) :
    List.Sorted (fun a b : RollMsg => a.time ≤ b.time) (sortRoll roll) :=
  List.sorted_insertionSort _ roll

/-- C9.  For every input to `write_events_to_midi` (any note events,
any pedal events, any start time), every `note_on` and `control_change`
message appended to track 1 carries a non-negative delta time: the
roll is sorted by time before the monotone integer tick conversion, the
running reference starts at zero, and negative-tick events are
filtered out. -/
theorem c9_nonneg_deltas (startTime : ℚ) (noteEvents : List NoteEvent)
    (pedalEvents : List PedalEvent) :
    ∀ m ∈ track1Messages startTime noteEvents pedalEvents, 0 ≤ m.time := by
  have key : ∀ (roll : List RollMsg) (prev : ℤ), 0 ≤ prev →
      List.Sorted (fun a b : RollMsg => a.time ≤ b.time) roll →
      (∀ r ∈ roll, prev ≤ writeTicks startTime r.time ∨ writeTicks startTime r.time < 0) →
      ∀ m ∈ writeTrack1Aux startTime prev roll, 0 ≤ m.time := by
    intro roll
    induction roll with
    | nil => intro prev _ _ _ m hm; simp [writeTrack1Aux] at hm
    | cons r rest ih =>
      intro prev hprev hsort hinv m hm
      rcases List.sorted_cons.1 hsort with ⟨hr, hrest⟩
      rw [writeTrack1Aux] at hm
      by_cases hk : 0 ≤ writeTicks startTime r.time
      · rw [if_pos hk] at hm
        rcases List.mem_cons.1 hm with rfl | hmem
        · have := hinv r (List.mem_cons_self r rest)
          simp only [emitMsg]
          omega
        · refine ih (writeTicks startTime r.time) hk hrest ?_ m hmem
          intro x hx
          exact Or.inl (writeTicks_mono startTime (hr x hx))
      · rw [if_neg hk] at hm
        refine ih prev hprev hrest ?_ m hm
        intro x hx
        exact hinv x (List.mem_cons_of_mem r hx)
  intro m hm
  exact key _ 0 le_rfl (sortRoll_sorted _) (fun r _ => by omega) m hm

/-- C6 counterexample.  A single note with onset time 0.001 s and
offset time 1 s, written with start time 0: the code truncates
`0.768` ticks to 0, while the rounding formula of the statement gives
1, so the first emitted message carries delta 0 and not the claimed
rounded value. -/
theorem c6_counterexample :
    track1Messages 0 [⟨1 / 1000, 1, 60, 100⟩] [] =
      [{ payload := TrackPayload.noteOn 60 100, time := 0 },
       { payload := TrackPayload.noteOn 60 0, time := 768 }] ∧
    roundTicksClaim 0 (1 / 1000) = 1 ∧ (0 : ℤ) ≠ 1 := by
  refine ⟨?_, ?_, by decide⟩
  · have h1 : writeTicks 0 (1 / 1000) = 0 := by
      unfold writeTicks pyInt ticksPerSecond ticksPerBeat beatsPerSecond
      rw [if_neg (by norm_num)]
      rw [show ((1 : ℚ) / 1000 - 0) * (384 * 2) = 768 / 1000 by ring]
      rw [Int.floor_eq_iff]
      norm_num
    have h2 : writeTicks 0 1 = 768 := by
      unfold writeTicks pyInt ticksPerSecond ticksPerBeat beatsPerSecond
      rw [if_neg (by norm_num)]
      rw [show ((1 : ℚ) - 0) * (384 * 2) = 768 by ring]
      exact_mod_cast Int.floor_intCast (768 : ℤ)
    have hsorted : sortRoll (messageRoll [⟨1 / 1000, 1, 60, 100⟩] []) =
        [RollMsg.note (1 / 1000) 60 100, RollMsg.note 1 60 0] := by
      simp only [messageRoll, List.nil_bind, List.cons_bind, List.append_nil, List.nil_append,
        List.append_assoc]
      simp only [sortRoll, List.insertionSort, List.orderedInsert]
      rw [if_pos (by norm_num [RollMsg.time])]
    simp only [track1Messages, hsorted, writeTrack1Aux, RollMsg.time]
    rw [h1, h2]
    norm_num [emitMsg, rollPayload]
  · unfold roundTicksClaim ticksPerSecond ticksPerBeat beatsPerSecond
    rw [show ((1 : ℚ) / 1000 - 0) * (384 * 2) + 1 / 2 = 1268 / 1000 by ring]
    rw [Int.floor_eq_iff]
    norm_num

/-- C6 (amended).  In `write_events_to_midi` with
`ticks_per_beat = 384` and `beats_per_second = 2`, the combined message
roll is sorted by time, entries whose tick value
`int((time - start_time) * ticks_per_second)` (truncation toward zero,
not rounding) is negative are dropped, and the emitted messages
correspond one to one, in order, to the kept entries, each delta time
being the gap from the previous emitted message so that the partial
sums of the deltas are exactly the truncated tick values. -/
theorem c6_tick_conversion (startTime : ℚ) (noteEvents : List NoteEvent)
    (pedalEvents : List PedalEvent) :
    (track1Messages startTime noteEvents pedalEvents).map TrackMsg.payload =
      ((sortRoll (messageRoll noteEvents pedalEvents)).filter
        (fun m => decide (0 ≤ writeTicks startTime m.time))).map rollPayload ∧
    cumSums 0 ((track1Messages startTime noteEvents pedalEvents).map TrackMsg.time) =
      ((sortRoll (messageRoll noteEvents pedalEvents)).filter
        (fun m => decide (0 ≤ writeTicks startTime m.time))).map
        (fun m => writeTicks startTime m.time) := by
  have key : ∀ (roll : List RollMsg) (prev : ℤ),
      (writeTrack1Aux startTime prev roll).map TrackMsg.payload =
        (roll.filter (fun m => decide (0 ≤ writeTicks startTime m.time))).map rollPayload ∧
      cumSums prev ((writeTrack1Aux startTime prev roll).map TrackMsg.time) =
        (roll.filter (fun m => decide (0 ≤ writeTicks startTime m.time))).map
          (fun m => writeTicks startTime m.time) := by
    intro roll
    induction roll with
    | nil => intro prev; exact ⟨rfl, rfl⟩
    | cons r rest ih =>
      intro prev
      rw [writeTrack1Aux]
      by_cases hk : 0 ≤ writeTicks startTime r.time
      · rw [if_pos hk]
        constructor
        · simp only [List.map_cons, List.filter_cons, decide_eq_true hk, emitMsg]
          rw [(ih (writeTicks startTime r.time)).1]
          simp
        · simp only [List.map_cons, List.filter_cons, decide_eq_true hk, emitMsg, cumSums]
          have harith : prev + (writeTicks startTime r.time - prev) =
              writeTicks startTime r.time := by ring
          rw [harith, (ih (writeTicks startTime r.time)).2]
          simp
      · rw [if_neg hk]
        have hd : decide (0 ≤ writeTicks startTime r.time) = false :=
          decide_eq_false hk
        simp only [List.filter_cons, hd]
        exact ih prev
  exact key (sortRoll (messageRoll noteEvents pedalEvents)) 0

/-! ## C7: total duration after load_file -/

/-- C7 counterexample.  A file with a note-on at 1 s followed by a
non-note message with delta 5 s: the last recorded event sits at time
1, but `total_duration` is the accumulated time of all messages, 6. -/
theorem c7_counterexample :
    loadFileTotalDuration [MidoMsg.noteOn 60 100 1, MidoMsg.other 5] = 6 ∧
    (loadFileOriginalEvents [MidoMsg.noteOn 60 100 1, MidoMsg.other 5]).getLast? =
      some ⟨1, EvType.on, 60⟩ ∧
    (6 : ℚ) ≠ 1 := by
  refine ⟨?_, ?_, by norm_num⟩
  · simp only [loadFileTotalDuration, collectEvents, MidoMsg.time]
    norm_num [totalTimeOf, MidoMsg.time]
  · simp only [loadFileOriginalEvents, collectEvents, MidoMsg.time, sortEvents,
      List.insertionSort, List.orderedInsert]
    norm_num

/-- Monotonicity of the time accumulation under nonnegative deltas. -/
theorem foldTime_ge (msgs : List MidoMsg) (hnn : ∀ m ∈ msgs, 0 ≤ m.time) (t : ℚ) :
    t ≤ msgs.foldl (fun a m => a + m.time) t := by
  induction msgs generalizing t with
  | nil => exact le_rfl
  | cons m rest ih =>
    have h0 : 0 ≤ m.time := hnn m (List.mem_cons_self m rest)
    have hrest : ∀ x ∈ rest, 0 ≤ x.time := fun x hx => hnn x (List.mem_cons_of_mem m hx)
    calc t ≤ t + m.time := by linarith
      _ ≤ rest.foldl (fun a m => a + m.time) (t + m.time) := ih hrest (t + m.time)
      _ = (m :: rest).foldl (fun a m => a + m.time) t := rfl

/-- Every recorded event time is bounded by the final accumulated time
when delta times are nonnegative. -/
theorem collectEvents_time_le (msgs : List MidoMsg) (hnn : ∀ m ∈ msgs, 0 ≤ m.time) :
    ∀ (t : ℚ), ∀ e ∈ collectEvents msgs t, e.time ≤ msgs.foldl (fun a m => a + m.time) t := by
  induction msgs with
  | nil => intro t e he; simp [collectEvents] at he
  | cons m rest ih =>
    intro t e he
    have hrest : ∀ x ∈ rest, 0 ≤ x.time := fun x hx => hnn x (List.mem_cons_of_mem m hx)
    have hbound : t + m.time ≤ rest.foldl (fun a m => a + m.time) (t + m.time) :=
      foldTime_ge rest hrest (t + m.time)
    have hfold : (m :: rest).foldl (fun a m => a + m.time) t =
        rest.foldl (fun a m => a + m.time) (t + m.time) := rfl
    rw [hfold]
    rcases m with ⟨note, vel, tm⟩ | ⟨note, tm⟩ | tm
    · simp only [collectEvents, MidoMsg.time] at he
      split at he
      · rcases List.mem_cons.1 he with rfl | hmem
        · exact hbound
        · exact ih hrest (t + MidoMsg.time (MidoMsg.noteOn note vel tm)) e hmem
      · rcases List.mem_cons.1 he with rfl | hmem
        · exact hbound
        · exact ih hrest (t + MidoMsg.time (MidoMsg.noteOn note vel tm)) e hmem
    · simp only [collectEvents, MidoMsg.time] at he
      rcases List.mem_cons.1 he with rfl | hmem
      · exact hbound
      · exact ih hrest (t + MidoMsg.time (MidoMsg.noteOff note tm)) e hmem
    · simp only [collectEvents, MidoMsg.time] at he
      exact ih hrest (t + MidoMsg.time (MidoMsg.other tm)) e he

/-- The sorted event list is empty exactly when no event was recorded. -/
theorem loadFileOriginalEvents_eq_nil_iff (msgs : List MidoMsg) :
    loadFileOriginalEvents msgs = [] ↔ collectEvents msgs 0 = [] := by
  unfold loadFileOriginalEvents sortEvents
  constructor
  · intro h
    have := List.length_insertionSort (fun a b : PEvent => a.time ≤ b.time) (collectEvents msgs 0)
    rw [h] at this
    exact List.length_eq_zero.1 this.symm
  · intro h
    rw [h]
    rfl

/-- C7 (amended).  After `load_file`, `total_duration` equals the
accumulated delta time of ALL messages of the file, not the time of the
last recorded note event: it is 0 when no note event exists, equals
`totalTimeOf msgs` otherwise, and (for nonnegative delta times) bounds
every recorded event time from above, with equality only when no time
elapses after the last note event. -/
theorem c7_total_duration (msgs : List MidoMsg) :
    (loadFileOriginalEvents msgs = [] → loadFileTotalDuration msgs = 0) ∧
    (loadFileOriginalEvents msgs ≠ [] → loadFileTotalDuration msgs = totalTimeOf msgs) ∧
    ((∀ m ∈ msgs, 0 ≤ m.time) →
      ∀ e ∈ loadFileOriginalEvents msgs, e.time ≤ loadFileTotalDuration msgs) := by
  refine ⟨?_, ?_, ?_⟩
  · intro h
    have hc := (loadFileOriginalEvents_eq_nil_iff msgs).1 h
    unfold loadFileTotalDuration
    rw [hc]
  · intro h
    have hc : collectEvents msgs 0 ≠ [] := fun hcon =>
      h ((loadFileOriginalEvents_eq_nil_iff msgs).2 hcon)
    unfold loadFileTotalDuration
    match hm : collectEvents msgs 0 with
    | [] => exact absurd hm hc
    | _ :: _ => rfl
  · intro hnn e he
    have hmem : e ∈ collectEvents msgs 0 := by
      unfold loadFileOriginalEvents sortEvents at he
      exact (List.mem_insertionSort _).1 he
    have hnonempty : collectEvents msgs 0 ≠ [] := by
      intro hcon
      rw [hcon] at hmem
      cases hmem
    have hdur : loadFileTotalDuration msgs = totalTimeOf msgs := by
      unfold loadFileTotalDuration
      match hm : collectEvents msgs 0 with
      | [] => exact absurd hm hnonempty
      | _ :: _ => rfl
    rw [hdur]
    exact collectEvents_time_le msgs hnn 0 e hmem

/-- Witness for C7 on the two message file used for the counterexample:
the duration equals the accumulated time of all messages and bounds the
event time. -/
theorem c7_witness :
    loadFileOriginalEvents [MidoMsg.noteOn 60 100 1, MidoMsg.other 5] ≠ [] ∧
    loadFileTotalDuration [MidoMsg.noteOn 60 100 1, MidoMsg.other 5] =
      totalTimeOf [MidoMsg.noteOn 60 100 1, MidoMsg.other 5] := by
  have hne : loadFileOriginalEvents [MidoMsg.noteOn 60 100 1, MidoMsg.other 5] ≠ [] := by
    simp [loadFileOriginalEvents, collectEvents, sortEvents, List.insertionSort,
      List.orderedInsert, MidoMsg.time]
  exact ⟨hne, (c7_total_duration [MidoMsg.noteOn 60 100 1, MidoMsg.other 5]).2.1 hne⟩

/-! ## C8: overlap reconstruction -/

/-- C8 counterexample.  Two stacked segments of five frames each: the
code drops the final frame of BOTH segments before slicing, so the
final frame of the last segment (here `14`) never reaches the output,
while the reconstruction described by the statement keeps it. -/
theorem c8_counterexample :
    deframe [[0, 1, 2, 3, 4], [10, 11, 12, 13, 14]] = ([0, 1, 2, 11, 12, 13] : List ℕ) ∧
    deframeClaim [[0, 1, 2, 3, 4], [10, 11, 12, 13, 14]] =
      ([0, 1, 2, 11, 12, 13, 14] : List ℕ) ∧
    ([0, 1, 2, 11, 12, 13] : List ℕ) ≠ [0, 1, 2, 11, 12, 13, 14] := by
  refine ⟨by decide, by decide, by decide⟩

/-- The last element of a nonempty list with a fallback is a member. -/
theorem getLastD_mem_cons {α : Type} :
    ∀ (l : List α) (a d : α), (a :: l).getLastD d ∈ a :: l := by
  intro l
  induction l with
  | nil => intro a d; simp
  | cons b t ih =>
    intro a d
    rw [List.getLastD_cons]
    exact List.mem_cons_of_mem a (ih b d)

/-- C8 (amended).  On a stack of equally long segments (the shape numpy
guarantees), `deframe` discards the final frame of EVERY segment, the
last one included, keeps the first three quarters of the first
shortened segment, the middle half of each interior one and the last
three quarters of the last one, and concatenates; a single segment
input is returned whole. -/
theorem c8_deframe_uniform {α : Type} (n : ℕ) (x : List (List α))
    (h : ∀ seg ∈ x, seg.length = n) :
    deframe x = deframeAmended x := by
  match x with
  | [] => rfl
  | [seg] => rfl
  | a :: b :: r =>
    have hmap : ∀ seg ∈ a.dropLast :: b.dropLast :: r.map (fun seg => seg.dropLast),
        seg.length = n - 1 := by
      intro seg hseg
      have : seg ∈ (a :: b :: r).map (fun seg => seg.dropLast) := by
        simpa [List.map_cons] using hseg
      rcases List.mem_map.1 this with ⟨s0, hs0, rfl⟩
      rw [List.length_dropLast, h s0 hs0]
    have hhead : (List.dropLast a).length = n - 1 :=
      hmap a.dropLast (List.mem_cons_self _ _)
    have hlast : ((a.dropLast :: b.dropLast :: r.map (fun seg => seg.dropLast)).getLastD
        []).length = n - 1 :=
      hmap _ (getLastD_mem_cons _ _ _)
    simp only [deframe, deframeAmended, List.map_cons, List.headD_cons]
    rw [hhead, hlast]
    congr 1
    congr 1
    congr 1
    apply List.map_congr_left
    intro seg hseg
    have hmem : seg ∈ a.dropLast :: b.dropLast :: r.map (fun seg => seg.dropLast) :=
      List.mem_cons_of_mem _ (List.dropLast_subset _ hseg)
    rw [hmap seg hmem]

/-- Witness for C8 on the two concrete five frame segments. -/
theorem c8_witness :
    (∀ seg ∈ ([[0, 1, 2, 3, 4], [10, 11, 12, 13, 14]] : List (List ℕ)), seg.length = 5) ∧
    deframe [[0, 1, 2, 3, 4], [10, 11, 12, 13, 14]] =
      deframeAmended [[0, 1, 2, 3, 4], [10, 11, 12, 13, 14]] :=
  ⟨by decide, c8_deframe_uniform 5 [[0, 1, 2, 3, 4], [10, 11, 12, 13, 14]] (by decide)⟩

/-- Witness for C9: a concrete emitted message of a one note file
carries a non-negative delta. -/
theorem c9_witness :
    ({ payload := TrackPayload.noteOn 60 100, time := 0 } : TrackMsg) ∈
      track1Messages 0 [⟨0, 1, 60, 100⟩] [] ∧
    (0 : ℤ) ≤ ({ payload := TrackPayload.noteOn 60 100, time := 0 } : TrackMsg).time := by
  have h1 : writeTicks 0 0 = 0 := by
    unfold writeTicks pyInt ticksPerSecond ticksPerBeat beatsPerSecond
    rw [if_neg (by norm_num)]
    rw [show ((0 : ℚ) - 0) * (384 * 2) = 0 by ring]
    simp
  have h2 : writeTicks 0 1 = 768 := by
    unfold writeTicks pyInt ticksPerSecond ticksPerBeat beatsPerSecond
    rw [if_neg (by norm_num)]
    rw [show ((1 : ℚ) - 0) * (384 * 2) = 768 by ring]
    exact_mod_cast Int.floor_intCast (768 : ℤ)
  have hsorted : sortRoll (messageRoll [⟨0, 1, 60, 100⟩] []) =
      [RollMsg.note 0 60 100, RollMsg.note 1 60 0] := by
    simp only [messageRoll, List.nil_bind, List.cons_bind, List.append_nil, List.nil_append,
      List.append_assoc]
    simp only [sortRoll, List.insertionSort, List.orderedInsert]
    rw [if_pos (by norm_num [RollMsg.time])]
  have heval : track1Messages 0 [⟨0, 1, 60, 100⟩] [] =
      [{ payload := TrackPayload.noteOn 60 100, time := 0 },
       { payload := TrackPayload.noteOn 60 0, time := 768 }] := by
    simp only [track1Messages, hsorted, writeTrack1Aux, RollMsg.time]
    rw [h1, h2]
    norm_num [emitMsg, rollPayload]
  have hmem : ({ payload := TrackPayload.noteOn 60 100, time := 0 } : TrackMsg) ∈
      track1Messages 0 [⟨0, 1, 60, 100⟩] [] := by
    rw [heval]
    exact List.mem_cons_self _ _
  exact ⟨hmem, c9_nonneg_deltas 0 [⟨0, 1, 60, 100⟩] [] _ hmem⟩
